import Mathlib

/-!
Shallow embedding of `win_canonicalize` (`src/lib.rs`).

Strings are modelled as `List Char` (Rust `&str`/`String`/`Cow<str>` values;
every transformation in the source is a per-character textual rewrite).
The Win32 calls (`CoInitialize`, `PathCchCanonicalizeEx`, `MoveFileExW`) are
opaque platform capabilities and are modelled as oracle parameters; the
UTF-16 buffer handed to `PathCchCanonicalizeEx` is a `List Nat` of `u16`
code-unit values.  `Box<dyn std::error::Error>` values are distinguished by
their construction site, following the spec's error taxonomy.
-/

namespace WinCanon

/-- Error taxonomy: each constructor corresponds to one construction site of a
`Box<dyn std::error::Error>` in `src/lib.rs` (env-var lookup failure, failed
`CoInitialize`, `HRESULT` from `PathCchCanonicalizeEx`, `String::from_utf16`
failure, `HRESULT` from `MoveFileExW`). -/
inductive Err where
  | missingEnvironmentVariable : Err
  | initializationFailure : Err
  | nativeCanonicalizationFailure : Nat → Err
  | encodingFailure : Err
  | nativeMoveFailure : Nat → Err
deriving DecidableEq

/-- Decidable equality on `Except`, so concrete runs of the fallible
operations can be checked by `decide`. -/
instance {ε α : Type} [DecidableEq ε] [DecidableEq α] : DecidableEq (Except ε α) := fun a b =>
  match a, b with
  | Except.ok x, Except.ok y =>
    if h : x = y then Decidable.isTrue (congrArg Except.ok h)
    else Decidable.isFalse (fun hh => h (Except.ok.inj hh))
  | Except.error x, Except.error y =>
    if h : x = y then Decidable.isTrue (congrArg Except.error h)
    else Decidable.isFalse (fun hh => h (Except.error.inj hh))
  | Except.ok _, Except.error _ => Decidable.isFalse (fun hh => Except.noConfusion hh)
  | Except.error _, Except.ok _ => Decidable.isFalse (fun hh => Except.noConfusion hh)

/-- Model of `win_escape_char`: regex `WIN_ESCAPED_CHAR = \u{005E}(.)` applied
with `replace_all(_, "$1")`.  In the `regex` crate `.` matches any character
except `'\n'`, and `replace_all` rewrites the leftmost non-overlapping
matches; the fixed template `"$1"` expands to the captured character.  The
source wraps the result in `Result` but never produces an error, so the model
is pure. -/
def win_escape_char : List Char → List Char
  | [] => []
  | c :: rest =>
    if c = '^' then
      match rest with
      | [] => [c]
      | d :: rest2 =>
        if d = '\n' then c :: d :: win_escape_char rest2 else d :: win_escape_char rest2
    else c :: win_escape_char rest

/-- The character class `[a-zA-Z]` of `ROOTED_MING_W64_COMPAT`, by code
point: `a`–`z` is 97–122 and `A`–`Z` is 65–90. -/
def isAsciiLetterChar (c : Char) : Bool :=
  (97 ≤ c.toNat && c.toNat ≤ 122) || (65 ≤ c.toNat && c.toNat ≤ 90)

/-- Model of `fix_root`: regex `ROOTED_MING_W64_COMPAT = ^/([a-zA-Z])/(.*)$`.
`.` does not match `'\n'` and `$` (multi-line off) matches only at the end of
the text, so the pattern matches exactly the strings `/<letter>/<rest>` whose
`<rest>` contains no newline.  On a match the source rebuilds the string as
`format!("{}:\\{}", drive_letter.to_uppercase(), rest)`; for the ASCII
letters admitted by the class, `str::to_uppercase` agrees with
`Char.toUpper`.  On no match the input is returned unchanged. -/
def fix_root (s : List Char) : List Char :=
  match s with
  | a :: c :: b :: rest =>
    if a = '/' && b = '/' && isAsciiLetterChar c && !(rest.contains '\n') then
      c.toUpper :: ':' :: '\\' :: rest
    else s
  | _ => s

/-- A capture-name byte of a `regex`-crate replacement template:
`[0-9A-Za-z_]` (`Char.isAlphanum` is exactly ASCII letters and digits). -/
def isCapLetterChar (c : Char) : Bool :=
  c.isAlphanum || c = '_'

/-- Numeric value of an all-digit capture name, as `str::parse::<u32>`. -/
def digitsVal (name : List Char) : Nat :=
  name.foldl (fun a c => a * 10 + (c.toNat - 48)) 0

/-- Value substituted for a capture reference while expanding a replacement
template against a match of `ROOTED_TILDE_COMPAT = ^(~)(.*)$`: group 0 is the
whole match, group 1 is `"~"`, group 2 is the rest; every other reference
(higher group number, number too large for `u32` — whose value is then `> 2`
anyway — or a name, since the pattern has no named groups) expands to the
empty string. -/
def capRefValue (g0 g1 g2 : List Char) (name : List Char) : List Char :=
  if name.all Char.isDigit then
    if digitsVal name = 0 then g0
    else if digitsVal name = 1 then g1
    else if digitsVal name = 2 then g2
    else []
  else []

/-- Replacement-template expansion of the `regex` crate (`expand_str`), for a
match of `ROOTED_TILDE_COMPAT` with groups `g0`, `g1`, `g2`: text is copied
verbatim; `$$` yields a literal `$`; `$name` (longest run of
`[0-9A-Za-z_]`) and `${name}` yield the group's value or `""`; a `$` that
starts no valid reference is copied literally.  `fuel` only forces structural
recursion: every step consumes at least one template character, so
`fuel = template length` (as used by `expandRepl`) never reaches the `0`
base case on a nonempty template. -/
def expandFuel (g0 g1 g2 : List Char) : Nat → List Char → List Char
  | 0, t => t
  | _ + 1, [] => []
  | fuel + 1, c :: t =>
    if c = '$' then
      match t with
      | '$' :: t2 => '$' :: expandFuel g0 g1 g2 fuel t2
      | '{' :: t2 =>
        if (t2.takeWhile isCapLetterChar).isEmpty then '$' :: expandFuel g0 g1 g2 fuel t
        else
          match t2.drop (t2.takeWhile isCapLetterChar).length with
          | '}' :: t3 =>
            capRefValue g0 g1 g2 (t2.takeWhile isCapLetterChar) ++ expandFuel g0 g1 g2 fuel t3
          | _ => '$' :: expandFuel g0 g1 g2 fuel t
      | _ =>
        if (t.takeWhile isCapLetterChar).isEmpty then '$' :: expandFuel g0 g1 g2 fuel t
        else
          capRefValue g0 g1 g2 (t.takeWhile isCapLetterChar) ++
            expandFuel g0 g1 g2 fuel (t.drop (t.takeWhile isCapLetterChar).length)
    else c :: expandFuel g0 g1 g2 fuel t

/-- Expansion of a full replacement template (fuel = template length). -/
def expandRepl (g0 g1 g2 t : List Char) : List Char :=
  expandFuel g0 g1 g2 t.length t

/-- Model of `fix_tilde`: regex `ROOTED_TILDE_COMPAT = ^(~)(.*)$` matches
exactly the strings `~<rest>` whose `<rest>` contains no newline (`.` does
not match `'\n'`, `$` is end of text).  On a match the source reads
`std::env::var("HOME")` (modelled by `env`; `Err` becomes
`missingEnvironmentVariable`) and runs
`replace_all(_, format!("{}$2", home))`: the home value is spliced into the
replacement template *before* expansion, so `$`-sequences inside it are
interpreted as capture references.  The anchored pattern matches the whole
string, so the result is exactly the expanded template. -/
def fix_tilde (env : Option (List Char)) (s : List Char) : Except Err (List Char) :=
  match s with
  | t :: rest =>
    if t = '~' && !(rest.contains '\n') then
      match env with
      | none => Except.error Err.missingEnvironmentVariable
      | some home => Except.ok (expandRepl s ['~'] rest (home ++ ['$', '2']))
    else Except.ok s
  | [] => Except.ok s

/-- The character class `[\u{005C}\u{002F}]` of `NORMALIZE_SLASH`. -/
def isSlashChar (c : Char) : Bool :=
  c = '\\' || c = '/'

/-- `replace_all` of `NORMALIZE_SLASH = ([\u{005C}\u{002F}]{1,})` with the
literal template `\`: each leftmost (hence maximal, the repetition being
greedy) run of slash characters is replaced by one backslash.  The boolean
state records whether the scanner is inside a run whose backslash has
already been emitted. -/
def collapseGo : Bool → List Char → List Char
  | _, [] => []
  | inRun, c :: rest =>
    if isSlashChar c then
      if inRun then collapseGo true rest else '\\' :: collapseGo true rest
    else c :: collapseGo false rest

/-- Model of `normalize_slash`: if the regex matches (some slash character is
present) return the `replace_all` rewrite, otherwise return the input
unchanged. -/
def normalize_slash (s : List Char) : List Char :=
  if s.any isSlashChar then collapseGo false s else s

/-- Model of `co_initialize`: the body executed under the `INIT` mutex.
`flag` is the current value of the guarded boolean, `ok` is the oracle for
the outcome of the `CoInitialize` call if one is made.  Returns the new flag,
the list of native `CoInitialize` invocations performed by this call (entry =
whether it succeeded), and the `Result`. -/
def co_initialize_t (flag : Bool) (ok : Bool) : Bool × List Bool × Except Err Unit :=
  if flag then (flag, [], Except.ok ())
  else if ok then (true, [true], Except.ok ())
  else (false, [false], Except.error Err.initializationFailure)

/-- A process-lifetime sequence of `co_initialize` calls (the mutex
serializes them): threads the flag through and concatenates the native
invocations. -/
def runInitSeq : Bool → List Bool → Bool × List Bool
  | flag, [] => (flag, [])
  | flag, ok :: rest =>
    ((runInitSeq (co_initialize_t flag ok).1 rest).1,
      (co_initialize_t flag ok).2.1 ++ (runInitSeq (co_initialize_t flag ok).1 rest).2)

/-- UTF-16 decoding as performed by `String::from_utf16`: code units below
`0xD800` or at/above `0xE000` decode to themselves; a high surrogate
(`0xD800..0xDC00`) must be followed by a low surrogate (`0xDC00..0xE000`) and
the pair decodes to a supplementary code point; anything else is a decoding
error.  The result is the list of Unicode scalar values. -/
def decodeUtf16 : List Nat → Option (List Nat)
  | [] => some []
  | u :: rest =>
    if u < 55296 ∨ 57344 ≤ u then
      (decodeUtf16 rest).map (fun l => u :: l)
    else if u < 56320 then
      match rest with
      | [] => none
      | u2 :: rest2 =>
        if 56320 ≤ u2 ∧ u2 < 57344 then
          (decodeUtf16 rest2).map (fun l => (65536 + (u - 55296) * 1024 + (u2 - 56320)) :: l)
        else none
    else none

/-- Oracle for `PathCchCanonicalizeEx`: either the failing `HRESULT`
(propagated by `?`) or the contents of the 32768-entry `u16` buffer after
the call. -/
abbrev CanonOracle := List Char → Except Nat (List Nat)

/-- Model of `path_cch_canonicalize_ex`: run `co_initialize`, call the native
canonicalizer, scan the buffer for the first zero unit (`for index in
0..KiB32 { if v[index] == 0 { break } length += 1 }` computes the length of
the longest all-nonzero prefix), and decode that prefix with
`String::from_utf16`.  Returns the new initialization flag and the result,
the decoded string being its list of Unicode scalar values. -/
def path_cch_canonicalize_ex (flag ok : Bool) (oracle : CanonOracle) (s : List Char) :
    Bool × Except Err (List Nat) :=
  match co_initialize_t flag ok with
  | (f2, _, Except.error e) => (f2, Except.error e)
  | (f2, _, Except.ok _) =>
    match oracle s with
    | Except.error code => (f2, Except.error (Err.nativeCanonicalizationFailure code))
    | Except.ok buf =>
      match decodeUtf16 (buf.takeWhile (fun u => u != 0)) with
      | none => (f2, Except.error Err.encodingFailure)
      | some cps => (f2, Except.ok cps)

/-- Model of `canonicalize`: `fix_root`, then `fix_tilde`, then
`normalize_slash`, then `path_cch_canonicalize_ex`, each `?`-propagated.
`fix_root` and `normalize_slash` return `Result` in the source but have no
error path, so they appear pure here. -/
def canonicalize (flag ok : Bool) (env : Option (List Char)) (oracle : CanonOracle)
    (path : List Char) : Bool × Except Err (List Nat) :=
  match fix_tilde env (fix_root path) with
  | Except.error e => (flag, Except.error e)
  | Except.ok b => path_cch_canonicalize_ex flag ok oracle (normalize_slash b)

/-- Oracle for `MoveFileExW`: `(src, dst, flags)` to success or the failing
`HRESULT`. -/
abbrev MoveOracle := List Char → List Char → Nat → Except Nat Unit

/-- Model of `priv_move_file`: run `co_initialize`, build
`flags = (if overwrite_okay { 1 } else { 0 }) + 0 + 2`
(`MOVEFILE_REPLACE_EXISTING = 1`, `MOVEFILE_COPY_ALLOWED = 2`), and call
`MoveFileExW` once.  The middle component records the native move
invocations `(src, dst, flags)` performed. -/
def priv_move_file (flag ok : Bool) (oracle : MoveOracle) (src dst : List Char)
    (overwrite_okay : Bool) : Bool × List (List Char × List Char × Nat) × Except Err Unit :=
  match co_initialize_t flag ok with
  | (f2, _, Except.error e) => (f2, [], Except.error e)
  | (f2, _, Except.ok _) =>
    match oracle src dst ((if overwrite_okay then 1 else 0) + 0 + 2) with
    | Except.error code =>
      (f2, [(src, dst, (if overwrite_okay then 1 else 0) + 0 + 2)],
        Except.error (Err.nativeMoveFailure code))
    | Except.ok _ =>
      (f2, [(src, dst, (if overwrite_okay then 1 else 0) + 0 + 2)], Except.ok ())

/-- Model of `move_file`: delegates to `priv_move_file`. -/
def move_file (flag ok : Bool) (oracle : MoveOracle) (src dst : List Char)
    (overwrite : Bool) : Bool × List (List Char × List Char × Nat) × Except Err Unit :=
  priv_move_file flag ok oracle src dst overwrite

/-- The caret rule as claim C6 words it: a caret followed by *any* single
character (newline included) is replaced by that character.  Stated from the
spec's words, for comparison with `win_escape_char`. -/
def win_escape_claimed : List Char → List Char
  | [] => []
  | c :: rest =>
    if c = '^' then
      match rest with
      | [] => [c]
      | d :: rest2 => d :: win_escape_claimed rest2
    else c :: win_escape_claimed rest

/-- The pipeline as claim C1 words it: caret-escape removal first, then the
stages of `canonicalize`.  Stated from the spec's words, for comparison with
`canonicalize`. -/
def canonicalize_claimed_order (flag ok : Bool) (env : Option (List Char))
    (oracle : CanonOracle) (path : List Char) : Bool × Except Err (List Nat) :=
  match fix_tilde env (fix_root (win_escape_char path)) with
  | Except.error e => (flag, Except.error e)
  | Except.ok b => path_cch_canonicalize_ex flag ok oracle (normalize_slash b)

/-- "String already uses single backslashes, or has none" (claim C5's no-op
condition): no forward slash anywhere and no slash character directly after a
backslash, i.e. every maximal slash run is already exactly one backslash. -/
def singleBackslashForm : List Char → Bool
  | [] => true
  | c :: rest =>
    if c = '/' then false
    else if c = '\\' then
      match rest with
      | [] => true
      | d :: _ => if isSlashChar d then false else singleBackslashForm rest
    else singleBackslashForm rest

/-- Concrete canonicalization oracle for witnesses/counterexamples: always
fails, with the input length as status code (so the code records which string
reached the native layer). -/
def lenOracle : CanonOracle := fun s => Except.error s.length

/-- Concrete canonicalization oracle for witnesses: succeeds and leaves
`"H"` (code unit 72) followed by a zero terminator in the 32768-entry
buffer. -/
def bufOracle : CanonOracle := fun _ => Except.ok (72 :: List.replicate 32767 0)

/-- Concrete move oracle for witnesses: the native move always succeeds. -/
def okMoveOracle : MoveOracle := fun _ _ _ => Except.ok ()

example : win_escape_char ("F:\\^^Users^\\Valarauca").toList
    = ("F:\\^Users\\Valarauca").toList := by decide
example : fix_root ("/f/Users/Valarauca").toList = ("F:\\Users/Valarauca").toList := by decide
example : fix_root ("F:\\Users\\Valarauca").toList = ("F:\\Users\\Valarauca").toList := by decide
example : fix_root ("/f/Users/Valarauca//").toList = ("F:\\Users/Valarauca//").toList := by
  decide
example : fix_tilde (some (("C:\\Users\\valarauca").toList)) (("~/Documents/").toList)
    = Except.ok (("C:\\Users\\valarauca/Documents/").toList) := by decide
example : fix_tilde (some (("C:\\Users\\valarauca").toList)) (("~\\\\\\lol\\").toList)
    = Except.ok (("C:\\Users\\valarauca\\\\\\lol\\").toList) := by decide
example : fix_tilde (some (("h").toList)) (("C:\\Users\\Valarauca\\Documents\\").toList)
    = Except.ok (("C:\\Users\\Valarauca\\Documents\\").toList) := by decide
example : normalize_slash (("C:/Users/Valarauca/Documents/").toList)
    = ("C:\\Users\\Valarauca\\Documents\\").toList := by decide
example : normalize_slash (("C:\\Users/Valarauca\\/\\Documents\\\\/\\").toList)
    = ("C:\\Users\\Valarauca\\Documents\\").toList := by decide
example : normalize_slash (("C:\\Users\\Valarauca\\Documents\\").toList)
    = ("C:\\Users\\Valarauca\\Documents\\").toList := by decide

example : fix_tilde (some ['$', '1']) ['~', 'x'] = Except.ok ['~', 'x'] := by decide
example : fix_tilde (some ['$', '0']) ['~', 'x'] = Except.ok ['~', 'x', 'x'] := by decide
example : fix_tilde none ['~', '\n'] = Except.ok ['~', '\n'] := by decide
example : fix_root ['/', 'c', '/', 'a', '\n', 'b'] = ['/', 'c', '/', 'a', '\n', 'b'] := by decide
example : win_escape_char ['^', '\n'] = ['^', '\n'] := by decide
example : (canonicalize false true (some []) lenOracle ['^', 'a']).2
    = Except.error (Err.nativeCanonicalizationFailure 2) := by decide
example : (canonicalize_claimed_order false true (some []) lenOracle ['^', 'a']).2
    = Except.error (Err.nativeCanonicalizationFailure 1) := by decide
example : priv_move_file false true okMoveOracle ['a'] ['b'] true
    = (true, [(['a'], ['b'], 3)], Except.ok ()) := by decide
example : priv_move_file false true okMoveOracle ['a'] ['b'] false
    = (true, [(['a'], ['b'], 2)], Except.ok ()) := by decide

/-! ## Helper lemmas -/

theorem contains_false_of_not_mem {c : Char} {l : List Char} (h : c ∉ l) :
    l.contains c = false := by
  simp [List.contains]
  exact h

theorem contains_true_of_mem {c : Char} {l : List Char} (h : c ∈ l) :
    l.contains c = true := by
  simp [List.contains]
  exact h

theorem charOfNatToNat (n : Nat) (h : n < 55296) : (Char.ofNat n).toNat = n := by
  have hv : n.isValidChar := Or.inl h
  simp [Char.ofNat, hv, Char.ofNatAux, Char.toNat, UInt32.toNat]

theorem toUpper_ne_tilde (c : Char) (h : isAsciiLetterChar c = true) : c.toUpper ≠ '~' := by
  simp [isAsciiLetterChar] at h
  intro hh
  have h126 : c.toUpper.toNat = 126 := by rw [hh]; rfl
  rw [Char.toUpper] at h126
  rcases h with ⟨h1, h2⟩ | ⟨h1, h2⟩
  · rw [if_pos ⟨h1, h2⟩] at h126
    rw [charOfNatToNat _ (by omega)] at h126
    omega
  · rw [if_neg (by omega)] at h126
    omega

theorem expandFuel_nil (g0 g1 g2 : List Char) (f : Nat) : expandFuel g0 g1 g2 f [] = [] := by
  cases f <;> rfl

theorem expandFuel_no_dollar (g0 g1 g2 : List Char) :
    ∀ (home : List Char) (f : Nat), '$' ∉ home → home.length + 2 ≤ f →
      expandFuel g0 g1 g2 f (home ++ ['$', '2']) = home ++ g2 := by
  intro home
  induction home with
  | nil =>
    intro f _ hf
    obtain ⟨f1, rfl⟩ : ∃ f1, f = f1 + 1 := ⟨f - 1, by omega⟩
    have h1 : expandFuel g0 g1 g2 (f1 + 1) ([] ++ ['$', '2'])
        = capRefValue g0 g1 g2 ['2'] ++ expandFuel g0 g1 g2 f1 [] := rfl
    rw [h1, expandFuel_nil]
    simp [capRefValue, digitsVal]
  | cons h hs ih =>
    intro f hmem hf
    obtain ⟨f1, rfl⟩ : ∃ f1, f = f1 + 1 := ⟨f - 1, by omega⟩
    have hne : h ≠ '$' := fun hh => hmem (by simp [hh])
    have htail : '$' ∉ hs := fun hm => hmem (List.mem_cons_of_mem _ hm)
    have hlen : hs.length + 2 ≤ f1 := by
      simp [List.length_cons] at hf
      omega
    calc expandFuel g0 g1 g2 (f1 + 1) ((h :: hs) ++ ['$', '2'])
        = h :: expandFuel g0 g1 g2 f1 (hs ++ ['$', '2']) := by
          simp only [List.cons_append, expandFuel, if_neg hne, List.append_eq]
      _ = h :: (hs ++ g2) := by rw [ih f1 htail hlen]
      _ = (h :: hs) ++ g2 := rfl

theorem expandRepl_no_dollar (g0 g1 g2 home : List Char) (h : '$' ∉ home) :
    expandRepl g0 g1 g2 (home ++ ['$', '2']) = home ++ g2 := by
  unfold expandRepl
  apply expandFuel_no_dollar g0 g1 g2 home _ h
  simp

theorem fix_tilde_match (home rest : List Char) (hr : '\n' ∉ rest) :
    fix_tilde (some home) ('~' :: rest)
      = Except.ok (expandRepl ('~' :: rest) ['~'] rest (home ++ ['$', '2'])) := by
  simp [fix_tilde, hr]

theorem fix_tilde_none_match (rest : List Char) (hr : '\n' ∉ rest) :
    fix_tilde none ('~' :: rest) = Except.error Err.missingEnvironmentVariable := by
  simp [fix_tilde, hr]

theorem fix_tilde_not_tilde (env : Option (List Char)) (s : List Char)
    (h : s.head? ≠ some '~') : fix_tilde env s = Except.ok s := by
  match s with
  | [] => rfl
  | t :: rest =>
    have ht : t ≠ '~' := fun hh => h (by simp [hh])
    simp [fix_tilde, ht]

theorem fix_tilde_newline (env : Option (List Char)) (rest : List Char) (h : '\n' ∈ rest) :
    fix_tilde env ('~' :: rest) = Except.ok ('~' :: rest) := by
  simp [fix_tilde, h]

theorem fix_tilde_error_shape (env : Option (List Char)) (s : List Char) (e : Err)
    (h : fix_tilde env s = Except.error e) :
    e = Err.missingEnvironmentVariable ∧ env = none ∧
      ∃ rest, s = '~' :: rest ∧ '\n' ∉ rest := by
  match s with
  | [] => simp [fix_tilde] at h
  | t :: rest =>
    by_cases hcond : t = '~' ∧ '\n' ∉ rest
    · match env with
      | some home => simp [fix_tilde, hcond] at h
      | none =>
        simp [fix_tilde, hcond] at h
        exact ⟨h.symm, rfl, rest, by rw [hcond.1], hcond.2⟩
    · simp [fix_tilde, hcond] at h

theorem fix_root_match (c : Char) (rest : List Char) (hc : isAsciiLetterChar c = true)
    (hr : '\n' ∉ rest) :
    fix_root ('/' :: c :: '/' :: rest) = c.toUpper :: ':' :: '\\' :: rest := by
  simp [fix_root, hc, hr]

theorem fix_root_newline (c : Char) (rest : List Char) (h : '\n' ∈ rest) :
    fix_root ('/' :: c :: '/' :: rest) = '/' :: c :: '/' :: rest := by
  simp [fix_root, h]

theorem fix_root_no_match (s : List Char)
    (h : ∀ c rest, s = '/' :: c :: '/' :: rest → isAsciiLetterChar c = false) :
    fix_root s = s := by
  match s with
  | [] => rfl
  | [a] => rfl
  | [a, c] => rfl
  | a :: c :: b :: rest =>
    show (if a = '/' && b = '/' && isAsciiLetterChar c && !(rest.contains '\n') then
      c.toUpper :: ':' :: '\\' :: rest else a :: c :: b :: rest) = a :: c :: b :: rest
    by_cases ha : a = '/'
    · by_cases hb : b = '/'
      · subst ha; subst hb
        simp [h c rest rfl]
      · simp [hb]
    · simp [ha]

theorem fix_root_head_not_slash (s : List Char) (h : s.head? ≠ some '/') :
    fix_root s = s := by
  match s with
  | [] => rfl
  | [a] => rfl
  | [a, c] => rfl
  | a :: c :: b :: rest =>
    have ha : a ≠ '/' := fun hh => h (by simp [hh])
    show (if a = '/' && b = '/' && isAsciiLetterChar c && !(rest.contains '\n') then
      c.toUpper :: ':' :: '\\' :: rest else a :: c :: b :: rest) = a :: c :: b :: rest
    simp [ha]

theorem collapseGo_not_slash (b : Bool) (c : Char) (l : List Char) (h : isSlashChar c = false) :
    collapseGo b (c :: l) = c :: collapseGo false l := by
  simp [collapseGo, h]

theorem collapseGo_head_not_slash (v : List Char)
    (h : ∀ c, v.head? = some c → isSlashChar c = false) :
    collapseGo true v = collapseGo false v := by
  match v with
  | [] => rfl
  | c :: rest => simp [collapseGo, h c rfl]

theorem collapseGo_run_true : ∀ (run : List Char), (∀ c ∈ run, isSlashChar c = true) →
    ∀ (v : List Char), collapseGo true (run ++ v) = collapseGo true v := by
  intro run
  induction run with
  | nil => intro _ v; rfl
  | cons c r ih =>
    intro hall v
    have hc := hall c (List.mem_cons_self c r)
    simp only [List.cons_append, collapseGo, hc, if_true]
    exact ih (fun d hd => hall d (List.mem_cons_of_mem c hd)) v

theorem collapseGo_run_false (run v : List Char) (hne : run ≠ [])
    (hall : ∀ c ∈ run, isSlashChar c = true) :
    collapseGo false (run ++ v) = '\\' :: collapseGo true v := by
  match run with
  | [] => exact absurd rfl hne
  | c :: r =>
    have hc := hall c (List.mem_cons_self c r)
    simp only [List.cons_append, collapseGo, hc, if_true, Bool.false_eq_true, if_false,
      List.append_eq]
    rw [collapseGo_run_true r (fun d hd => hall d (List.mem_cons_of_mem c hd)) v]

theorem collapseGo_append : ∀ (u : List Char), u ≠ [] →
    (∀ c, u.getLast? = some c → isSlashChar c = false) →
    ∀ (w : List Char) (b : Bool),
      collapseGo b (u ++ w) = collapseGo b u ++ collapseGo false w := by
  intro u
  induction u with
  | nil => intro h; exact absurd rfl h
  | cons c u2 ih =>
    intro _ hlast w b
    cases u2 with
    | nil =>
      have hc : isSlashChar c = false := hlast c rfl
      simp [collapseGo, hc]
    | cons d u3 =>
      have hlast2 : ∀ x, (d :: u3).getLast? = some x → isSlashChar x = false := by
        intro x hx
        apply hlast
        rwa [List.getLast?_cons_cons]
      have ih2 := ih (by simp) hlast2 w
      by_cases hc : isSlashChar c = true
      · have hcons : ∀ (l : List Char) (b2 : Bool), collapseGo b2 (c :: l)
            = if b2 then collapseGo true l else '\\' :: collapseGo true l := by
          intro l b2
          cases b2 <;> simp [collapseGo, hc]
        rw [show c :: d :: u3 ++ w = c :: ((d :: u3) ++ w) from rfl, hcons, hcons, ih2 true]
        cases b <;> simp
      · have hc2 : isSlashChar c = false := by
          rw [Bool.not_eq_true] at hc
          exact hc
        rw [show c :: d :: u3 ++ w = c :: ((d :: u3) ++ w) from rfl,
          collapseGo_not_slash b c ((d :: u3) ++ w) hc2,
          collapseGo_not_slash b c (d :: u3) hc2, ih2 false]
        rfl

theorem collapseGo_no_slash_id : ∀ (l : List Char), (∀ c ∈ l, isSlashChar c = false) →
    ∀ b, collapseGo b l = l := by
  intro l
  induction l with
  | nil => intro _ b; rfl
  | cons c rest ih =>
    intro h b
    have hc := h c (List.mem_cons_self c rest)
    simp only [collapseGo, hc, Bool.false_eq_true, if_false]
    rw [ih (fun d hd => h d (List.mem_cons_of_mem c hd)) false]

theorem normalize_eq_collapse (s : List Char) : normalize_slash s = collapseGo false s := by
  unfold normalize_slash
  by_cases h : s.any isSlashChar
  · rw [if_pos h]
  · rw [if_neg h]
    have hall : ∀ c ∈ s, isSlashChar c = false := by
      intro c hcm
      have := List.any_eq_false.mp (Bool.not_eq_true _ |>.mp h) c hcm
      rwa [Bool.not_eq_true] at this
    exact (collapseGo_no_slash_id s hall false).symm

theorem singleBackslash_collapse_id : ∀ (s : List Char), singleBackslashForm s = true →
    collapseGo false s = s := by
  intro s
  induction s with
  | nil => intro _; rfl
  | cons c rest ih =>
    intro h
    by_cases hfs : c = '/'
    · rw [hfs] at h
      simp [singleBackslashForm] at h
    · by_cases hbs : c = '\\'
      · subst hbs
        cases rest with
        | nil => rfl
        | cons d rest2 =>
          have hd : isSlashChar d = false := by
            by_cases hds : isSlashChar d = true
            · simp [singleBackslashForm, hds] at h
            · rwa [Bool.not_eq_true] at hds
          have hrest : singleBackslashForm (d :: rest2) = true := by
            simpa [singleBackslashForm, hd] using h
          have hstep : collapseGo false ('\\' :: d :: rest2)
              = '\\' :: d :: collapseGo false rest2 := by
            rw [show collapseGo false ('\\' :: d :: rest2)
                = '\\' :: collapseGo true (d :: rest2) from rfl,
              collapseGo_not_slash true d rest2 hd]
          rw [hstep]
          have htail := ih hrest
          rw [collapseGo_not_slash false d rest2 hd] at htail
          rw [(List.cons.inj htail).2]
      · have hc : isSlashChar c = false := by simp [isSlashChar, hfs, hbs]
        have hrest : singleBackslashForm rest = true := by
          simpa [singleBackslashForm, hfs, hbs] using h
        rw [collapseGo_not_slash false c rest hc, ih hrest]

theorem win_escape_not_caret (c : Char) (l : List Char) (h : c ≠ '^') :
    win_escape_char (c :: l) = c :: win_escape_char l := by
  rw [win_escape_char.eq_def]
  simp [h]

theorem win_escape_caret_pair (d : Char) (v : List Char) (h : d ≠ '\n') :
    win_escape_char ('^' :: d :: v) = d :: win_escape_char v := by
  simp [win_escape_char, h]

theorem win_escape_caret_newline (v : List Char) :
    win_escape_char ('^' :: '\n' :: v) = '^' :: '\n' :: win_escape_char v := by
  simp [win_escape_char]

theorem win_escape_append : ∀ (u : List Char), '^' ∉ u →
    ∀ (v : List Char), win_escape_char (u ++ v) = u ++ win_escape_char v := by
  intro u
  induction u with
  | nil => intro _ v; rfl
  | cons c u2 ih =>
    intro h v
    have hc : c ≠ '^' := fun hh => h (by simp [hh])
    have h2 : '^' ∉ u2 := fun hm => h (List.mem_cons_of_mem c hm)
    rw [List.cons_append, win_escape_not_caret c _ hc, ih h2 v]
    rfl

theorem win_escape_id (s : List Char) (h : '^' ∉ s) : win_escape_char s = s := by
  have := win_escape_append s h []
  simpa [win_escape_char] using this

theorem decodeUtf16_no_zero : ∀ (n : Nat) (units : List Nat), units.length ≤ n →
    (∀ u ∈ units, u ≠ 0) → ∀ cps, decodeUtf16 units = some cps → 0 ∉ cps := by
  intro n
  induction n with
  | zero =>
    intro units hl _ cps hdec
    have hnil : units = [] := List.length_eq_zero.mp (Nat.le_zero.mp hl)
    subst hnil
    simp [decodeUtf16] at hdec
    subst hdec
    simp
  | succ n ih =>
    intro units hl hmem cps hdec
    cases units with
    | nil =>
      simp [decodeUtf16] at hdec
      subst hdec
      simp
    | cons u rest =>
      rw [decodeUtf16.eq_def] at hdec
      dsimp only at hdec
      by_cases h1 : u < 55296 ∨ 57344 ≤ u
      · rw [if_pos h1] at hdec
        cases hrest : decodeUtf16 rest with
        | none => rw [hrest] at hdec; simp at hdec
        | some l =>
          rw [hrest] at hdec
          simp at hdec
          have hu : u ≠ 0 := hmem u (List.mem_cons_self u rest)
          have hl2 : rest.length ≤ n := by
            simp [List.length_cons] at hl
            omega
          have htail : 0 ∉ l :=
            ih rest hl2 (fun x hx => hmem x (List.mem_cons_of_mem u hx)) l hrest
          subst hdec
          intro hmem0
          rcases List.mem_cons.mp hmem0 with hz | hz
          · exact hu hz.symm
          · exact htail hz
      · rw [if_neg h1] at hdec
        by_cases h2 : u < 56320
        · rw [if_pos h2] at hdec
          cases rest with
          | nil => simp at hdec
          | cons u2 rest2 =>
            dsimp only at hdec
            by_cases h3 : 56320 ≤ u2 ∧ u2 < 57344
            · rw [if_pos h3] at hdec
              cases hrest : decodeUtf16 rest2 with
              | none => rw [hrest] at hdec; simp at hdec
              | some l =>
                rw [hrest] at hdec
                simp at hdec
                have hl2 : rest2.length ≤ n := by
                  simp [List.length_cons] at hl
                  omega
                have htail : 0 ∉ l :=
                  ih rest2 hl2
                    (fun x hx =>
                      hmem x (List.mem_cons_of_mem u (List.mem_cons_of_mem u2 hx))) l hrest
                subst hdec
                intro hmem0
                rcases List.mem_cons.mp hmem0 with hz | hz
                · omega
                · exact htail hz
            · rw [if_neg h3] at hdec
              simp at hdec
        · rw [if_neg h2] at hdec
          simp at hdec

theorem mem_takeWhile_nz {x : Nat} {l : List Nat}
    (h : x ∈ l.takeWhile (fun u => u != 0)) : x ≠ 0 := by
  have := List.mem_takeWhile_imp h
  simpa using this

theorem takeWhile_nz_lt : ∀ (buf : List Nat), 0 ∈ buf →
    (buf.takeWhile (fun u => u != 0)).length < buf.length := by
  intro buf
  induction buf with
  | nil => intro h; cases h
  | cons u rest ih =>
    intro h
    by_cases hu : u = 0
    · subst hu
      rw [List.takeWhile_cons_of_neg (by simp)]
      simp
    · have h0 : 0 ∈ rest := by
        rcases List.mem_cons.mp h with h | h
        · exact absurd h.symm hu
        · exact h
      rw [List.takeWhile_cons_of_pos (by simp [hu])]
      simpa using Nat.succ_lt_succ (ih h0)

theorem runInitSeq_true : ∀ (l : List Bool), runInitSeq true l = (true, []) := by
  intro l
  induction l with
  | nil => rfl
  | cons ok rest ih => simp [runInitSeq, co_initialize_t, ih]

theorem runInitSeq_false_spec : ∀ (l : List Bool),
    (runInitSeq false l).2.count true ≤ 1 ∧
      ((runInitSeq false l).1 = true ↔ true ∈ (runInitSeq false l).2) := by
  intro l
  induction l with
  | nil => simp [runInitSeq]
  | cons ok rest ih =>
    cases ok
    · constructor
      · simpa [runInitSeq, co_initialize_t, List.count_cons] using ih.1
      · simpa [runInitSeq, co_initialize_t] using ih.2
    · simp [runInitSeq, co_initialize_t, runInitSeq_true]

theorem path_cch_red (flag ok : Bool) (oracle : CanonOracle) (s : List Char)
    (h : flag = true ∨ ok = true) :
    path_cch_canonicalize_ex flag ok oracle s =
      (match oracle s with
       | Except.error code => (true, Except.error (Err.nativeCanonicalizationFailure code))
       | Except.ok buf =>
         match decodeUtf16 (buf.takeWhile (fun u => u != 0)) with
         | none => (true, Except.error Err.encodingFailure)
         | some cps => (true, Except.ok cps)) := by
  cases flag
  · cases ok
    · rcases h with h | h <;> simp at h
    · rfl
  · rfl

theorem path_cch_init_fail (oracle : CanonOracle) (s : List Char) :
    path_cch_canonicalize_ex false false oracle s
      = (false, Except.error Err.initializationFailure) := rfl

theorem fix_root_tilde_head (s : List Char) (rest : List Char)
    (h : fix_root s = '~' :: rest) : s = '~' :: rest := by
  match s with
  | [] => simp [fix_root] at h
  | [a] => exact h
  | [a, c] => exact h
  | a :: c :: b :: rest2 =>
    by_cases hcond : (a = '/' && b = '/' && isAsciiLetterChar c && !(rest2.contains '\n')) = true
    · have hfr : fix_root (a :: c :: b :: rest2) = c.toUpper :: ':' :: '\\' :: rest2 := by
        show (if a = '/' && b = '/' && isAsciiLetterChar c && !(rest2.contains '\n') then
          c.toUpper :: ':' :: '\\' :: rest2 else a :: c :: b :: rest2) = _
        rw [if_pos hcond]
      rw [hfr] at h
      have hletter : isAsciiLetterChar c = true := by
        simp [Bool.and_eq_true] at hcond
        exact hcond.1.2
      exact absurd (List.cons.inj h).1 (toUpper_ne_tilde c hletter)
    · have hfr : fix_root (a :: c :: b :: rest2) = a :: c :: b :: rest2 := by
        show (if a = '/' && b = '/' && isAsciiLetterChar c && !(rest2.contains '\n') then
          c.toUpper :: ':' :: '\\' :: rest2 else a :: c :: b :: rest2) = _
        rw [if_neg hcond]
      rw [hfr] at h
      exact h

theorem takeWhile_replicate_zero : ∀ (n : Nat),
    (List.replicate n (0 : Nat)).takeWhile (fun u => u != 0) = [] := by
  intro n
  cases n with
  | zero => rfl
  | succ m =>
    rw [List.replicate_succ]
    exact List.takeWhile_cons_of_neg (by simp)

theorem priv_move_red (flag ok : Bool) (oracle : MoveOracle) (src dst : List Char) (ow : Bool)
    (h : flag = true ∨ ok = true) :
    priv_move_file flag ok oracle src dst ow =
      (match oracle src dst ((if ow then 1 else 0) + 0 + 2) with
       | Except.error code =>
         (true, [(src, dst, (if ow then 1 else 0) + 0 + 2)],
           Except.error (Err.nativeMoveFailure code))
       | Except.ok _ =>
         (true, [(src, dst, (if ow then 1 else 0) + 0 + 2)], Except.ok ())) := by
  cases flag
  · cases ok
    · rcases h with h | h <;> simp at h
    · rfl
  · rfl

theorem priv_move_init_fail (oracle : MoveOracle) (src dst : List Char) (ow : Bool) :
    priv_move_file false false oracle src dst ow
      = (false, [], Except.error Err.initializationFailure) := rfl

theorem path_cch_fst : ∀ (flag ok : Bool) (oracle : CanonOracle) (s : List Char),
    (path_cch_canonicalize_ex flag ok oracle s).1 = (co_initialize_t flag ok).1 := by
  intro flag ok oracle s
  have hred : ∀ (h : flag = true ∨ ok = true),
      (path_cch_canonicalize_ex flag ok oracle s).1 = true := by
    intro h
    rw [path_cch_red flag ok oracle s h]
    cases horacle : oracle s with
    | error code => rfl
    | ok buf =>
      dsimp only
      cases hdec : decodeUtf16 (buf.takeWhile (fun u => u != 0)) with
      | none => rfl
      | some cps => rfl
  cases flag
  · cases ok
    · rfl
    · rw [hred (Or.inr rfl)]; rfl
  · rw [hred (Or.inl rfl)]; rfl

theorem priv_move_fst : ∀ (flag ok : Bool) (oracle : MoveOracle) (src dst : List Char)
    (ow : Bool), (priv_move_file flag ok oracle src dst ow).1 = (co_initialize_t flag ok).1 := by
  intro flag ok oracle src dst ow
  have hred : ∀ (h : flag = true ∨ ok = true),
      (priv_move_file flag ok oracle src dst ow).1 = true := by
    intro h
    rw [priv_move_red flag ok oracle src dst ow h]
    cases horacle : oracle src dst ((if ow then 1 else 0) + 0 + 2) with
    | error code => rfl
    | ok u => rfl
  cases flag
  · cases ok
    · rfl
    · rw [hred (Or.inr rfl)]; rfl
  · rw [hred (Or.inl rfl)]; rfl

theorem path_cch_ne_missing : ∀ (flag ok : Bool) (oracle : CanonOracle) (s : List Char),
    (path_cch_canonicalize_ex flag ok oracle s).2
      ≠ Except.error Err.missingEnvironmentVariable := by
  intro flag ok oracle s
  by_cases h : flag = true ∨ ok = true
  · rw [path_cch_red flag ok oracle s h]
    cases horacle : oracle s with
    | error code => simp
    | ok buf =>
      cases hdec : decodeUtf16 (buf.takeWhile (fun u => u != 0)) with
      | none => simp [hdec]
      | some cps => simp [hdec]
  · have hf : flag = false := by
      cases flag
      · rfl
      · exact absurd (Or.inl rfl) h
    have ho : ok = false := by
      cases ok
      · rfl
      · exact absurd (Or.inr rfl) h
    subst hf; subst ho
    rw [path_cch_init_fail]
    simp

/-! ## Claim theorems -/

/-- C1, counterexample: the claimed pipeline applies caret-escape removal
first, but `canonicalize` never invokes `win_escape_char`, so on the input
`"^a"` the two pipelines hand different strings to the native layer (status
code = length of the string that reached it). -/
theorem canonicalize_caret_stage_counterexample :
    (canonicalize false true (some []) lenOracle ['^', 'a']).2
        = Except.error (Err.nativeCanonicalizationFailure 2) ∧
      (canonicalize_claimed_order false true (some []) lenOracle ['^', 'a']).2
        = Except.error (Err.nativeCanonicalizationFailure 1) ∧
      (canonicalize false true (some []) lenOracle ['^', 'a']).2
        ≠ (canonicalize_claimed_order false true (some []) lenOracle ['^', 'a']).2 := by
  decide

/-- C1, amended: `canonicalize` applies exactly root-drive fix, then tilde
expansion, then slash normalization, then native canonicalization, in that
fixed order, each stage's output being the next stage's input — caret-escape
removal is defined in the source but is not a stage of the pipeline.  The
first (and only locally fallible) stage error aborts the remaining stages:
the error is surfaced to the caller unmodified and the native stage is never
consulted, whatever oracle or initialization outcome is supplied. -/
theorem canonicalize_stage_order (flag ok : Bool) (env : Option (List Char))
    (oracle : CanonOracle) (path : List Char) :
    (canonicalize flag ok env oracle path
        = match fix_tilde env (fix_root path) with
          | Except.error e => (flag, Except.error e)
          | Except.ok b => path_cch_canonicalize_ex flag ok oracle (normalize_slash b)) ∧
    (∀ e, fix_tilde env (fix_root path) = Except.error e →
      ∀ (ok2 : Bool) (oracle2 : CanonOracle),
        canonicalize flag ok2 env oracle2 path = (flag, Except.error e)) := by
  constructor
  · unfold canonicalize
    cases fix_tilde env (fix_root path) with
    | error e => rfl
    | ok b => rfl
  · intro e he ok2 oracle2
    unfold canonicalize
    rw [he]

/-- C1, witness for the amended theorem: with `HOME` unset, `"~"` aborts the
pipeline with the tilde stage's error and the initialization flag is left
untouched. -/
theorem canonicalize_stage_order_witness :
    canonicalize false true none lenOracle ['~']
      = (false, Except.error Err.missingEnvironmentVariable) :=
  (canonicalize_stage_order false true none lenOracle ['~']).2
    Err.missingEnvironmentVariable (by decide) true lenOracle

/-- C2, counterexample: with the home value `"$1"`, `fix_tilde` on `"~x"`
does not substitute the home value verbatim — the `$1` is interpreted as a
capture reference by the replacement engine and expands back to `"~"`. -/
theorem fix_tilde_dollar_counterexample :
    fix_tilde (some ['$', '1']) ['~', 'x'] = Except.ok ['~', 'x'] ∧
      fix_tilde (some ['$', '1']) ['~', 'x'] ≠ Except.ok ['$', '1', 'x'] := by
  decide

/-- C2, amended: for an input beginning with `~` whose remainder contains no
newline, and a home value containing no `$` character, `fix_tilde` replaces
exactly the leading `~` with the home value verbatim and keeps the remainder
byte-for-byte; any string not beginning with `~` (in particular, one with a
`~` only in a later position) is returned unchanged. -/
theorem fix_tilde_verbatim :
    (∀ (home rest : List Char), '\n' ∉ rest → '$' ∉ home →
      fix_tilde (some home) ('~' :: rest) = Except.ok (home ++ rest)) ∧
    (∀ (env : Option (List Char)) (s : List Char), s.head? ≠ some '~' →
      fix_tilde env s = Except.ok s) := by
  constructor
  · intro home rest hr hd
    rw [fix_tilde_match home rest hr, expandRepl_no_dollar _ _ _ home hd]
  · exact fun env s h => fix_tilde_not_tilde env s h

/-- C2, witness: expansion of `"~/Documents/"` against a `$`-free home value,
and pass-through of `"a~b"`. -/
theorem fix_tilde_verbatim_witness :
    fix_tilde (some (("C:\\Users\\valarauca").toList)) ('~' :: ("/Documents/").toList)
        = Except.ok (("C:\\Users\\valarauca").toList ++ ("/Documents/").toList) ∧
      fix_tilde (some ['h']) (("a~b").toList) = Except.ok (("a~b").toList) :=
  ⟨fix_tilde_verbatim.1 _ _ (by decide) (by decide),
   fix_tilde_verbatim.2 _ _ (by decide)⟩

/-- C3, counterexample: `"~\n"` begins with `~` and the home variable is
unset, yet `fix_tilde` returns it unchanged instead of failing — the anchored
pattern does not match a remainder containing a newline, so the environment
is never read. -/
theorem fix_tilde_newline_no_error_counterexample :
    fix_tilde none ['~', '\n'] = Except.ok ['~', '\n'] ∧
      fix_tilde none ['~', '\n'] ≠ Except.error Err.missingEnvironmentVariable := by
  decide

/-- C3, amended: `fix_tilde` — and `canonicalize` with it — fails with
`MissingEnvironmentVariable` exactly when the home variable is unset and the
input begins with `~` with no newline in the remainder; no default is ever
substituted (the error is the only effect of the unset variable) and the
absence of the variable causes no error on any other input. -/
theorem missing_home_error_iff (env : Option (List Char)) (s : List Char) :
    (fix_tilde env s = Except.error Err.missingEnvironmentVariable ↔
      env = none ∧ ∃ rest, s = '~' :: rest ∧ '\n' ∉ rest) ∧
    (∀ (flag ok : Bool) (oracle : CanonOracle),
      (canonicalize flag ok env oracle s).2 = Except.error Err.missingEnvironmentVariable ↔
        env = none ∧ ∃ rest, s = '~' :: rest ∧ '\n' ∉ rest) := by
  have hiff : fix_tilde env s = Except.error Err.missingEnvironmentVariable ↔
      env = none ∧ ∃ rest, s = '~' :: rest ∧ '\n' ∉ rest := by
    constructor
    · intro h
      obtain ⟨_, henv, rest, hs, hr⟩ := fix_tilde_error_shape env s _ h
      exact ⟨henv, rest, hs, hr⟩
    · rintro ⟨henv, rest, rfl, hr⟩
      subst henv
      exact fix_tilde_none_match rest hr
  refine ⟨hiff, ?_⟩
  intro flag ok oracle
  constructor
  · intro h
    unfold canonicalize at h
    cases hft : fix_tilde env (fix_root s) with
    | error e =>
      obtain ⟨he, henv, rest, hfr, hr⟩ := fix_tilde_error_shape env (fix_root s) e hft
      exact ⟨henv, rest, fix_root_tilde_head s rest hfr, hr⟩
    | ok b =>
      rw [hft] at h
      exact absurd h (path_cch_ne_missing flag ok oracle (normalize_slash b))
  · rintro ⟨henv, rest, rfl, hr⟩
    subst henv
    have hroot : fix_root ('~' :: rest) = '~' :: rest :=
      fix_root_head_not_slash _ (by simp)
    unfold canonicalize
    rw [hroot, fix_tilde_none_match rest hr]

/-- C3, witness: the iff instantiated at `"~"` with the home variable
unset. -/
theorem missing_home_error_iff_witness :
    fix_tilde none ['~'] = Except.error Err.missingEnvironmentVariable :=
  (missing_home_error_iff none ['~']).1.mpr ⟨rfl, [], rfl, by decide⟩

/-- C4, counterexample: `"/c/a\nb"` has the shape `/<letter>/<rest>` but is
returned unchanged instead of being rewritten to `"C:\a\nb"` — the anchored
pattern `^/([a-zA-Z])/(.*)$` cannot match a remainder containing a
newline. -/
theorem fix_root_newline_counterexample :
    fix_root ['/', 'c', '/', 'a', '\n', 'b'] = ['/', 'c', '/', 'a', '\n', 'b'] ∧
      fix_root ['/', 'c', '/', 'a', '\n', 'b'] ≠ ['C', ':', '\\', 'a', '\n', 'b'] := by
  decide

/-- C4, amended: on `/<letter>/<rest>` with no newline in `<rest>`,
`fix_root` returns `<LETTER>:\<rest>` with the drive letter upper-cased and
`<rest>` copied verbatim (all repeated, mixed, internal, and trailing slashes
included); on a string not matching `^/[A-Za-z]/` it returns the input
unchanged; and on a matching shape whose remainder contains a newline it also
returns the input unchanged. -/
theorem fix_root_rewrite :
    (∀ (c : Char) (rest : List Char), isAsciiLetterChar c = true → '\n' ∉ rest →
      fix_root ('/' :: c :: '/' :: rest) = c.toUpper :: ':' :: '\\' :: rest) ∧
    (∀ (s : List Char),
      (∀ c rest, s = '/' :: c :: '/' :: rest → isAsciiLetterChar c = false) →
      fix_root s = s) ∧
    (∀ (c : Char) (rest : List Char), '\n' ∈ rest →
      fix_root ('/' :: c :: '/' :: rest) = '/' :: c :: '/' :: rest) :=
  ⟨fix_root_match, fix_root_no_match, fix_root_newline⟩

/-- C4, witness: the three conjuncts at concrete inputs: a rewrite keeping
the mixed trailing slashes, a non-matching string, and a newline
remainder. -/
theorem fix_root_rewrite_witness :
    fix_root ('/' :: 'f' :: '/' :: ("Users/\\").toList)
        = 'f'.toUpper :: ':' :: '\\' :: ("Users/\\").toList ∧
      fix_root (("F:g").toList) = ("F:g").toList ∧
      fix_root ('/' :: 'c' :: '/' :: ['\n']) = '/' :: 'c' :: '/' :: ['\n'] :=
  ⟨fix_root_rewrite.1 'f' _ (by decide) (by decide),
   fix_root_rewrite.2.1 _
     (fun c rest hh => absurd (List.cons.inj hh).1 (by decide)),
   fix_root_rewrite.2.2 'c' ['\n'] (by decide)⟩

/-- C5: `normalize_slash` replaces every maximal run of one or more slash
characters (forward or backward, mixed, whether leading, internal, or
trailing) by exactly one backslash — around a maximal run the rewrite
decomposes, with the run contributing a single `\` — and a string whose
every slash is already an isolated backslash (no run needing rewriting) is
returned unchanged. -/
theorem normalize_slash_runs :
    (∀ (u run v : List Char),
      (∀ c, u.getLast? = some c → isSlashChar c = false) →
      run ≠ [] → (∀ c ∈ run, isSlashChar c = true) →
      (∀ c, v.head? = some c → isSlashChar c = false) →
      normalize_slash (u ++ run ++ v) = normalize_slash u ++ '\\' :: normalize_slash v) ∧
    (∀ (s : List Char), singleBackslashForm s = true → normalize_slash s = s) := by
  constructor
  · intro u run v hu hne hrun hv
    rw [normalize_eq_collapse, normalize_eq_collapse, normalize_eq_collapse]
    have hrunv : collapseGo false (run ++ v) = '\\' :: collapseGo false v := by
      rw [collapseGo_run_false run v hne hrun, collapseGo_head_not_slash v hv]
    by_cases hu0 : u = []
    · subst hu0
      simpa using hrunv
    · rw [List.append_assoc, collapseGo_append u hu0 hu (run ++ v) false, hrunv]
  · intro s h
    rw [normalize_eq_collapse]
    exact singleBackslash_collapse_id s h

/-- C5, witness: the mixed run `"/\/"` between non-slash context collapses
to one backslash, and an already-normalized string passes through. -/
theorem normalize_slash_runs_witness :
    normalize_slash (['a'] ++ ['/', '\\', '/'] ++ ['b'])
        = normalize_slash ['a'] ++ '\\' :: normalize_slash ['b'] ∧
      normalize_slash (("a\\b\\").toList) = ("a\\b\\").toList :=
  ⟨normalize_slash_runs.1 ['a'] ['/', '\\', '/'] ['b']
      (by intro c hc; simp at hc; subst hc; decide) (by decide) (by decide)
      (by intro c hc; simp at hc; subst hc; decide),
   normalize_slash_runs.2 _ (by decide)⟩

/-- C6, counterexample: a caret immediately followed by a newline is a
"caret followed by a single character", but `win_escape_char` leaves it
untouched (`.` in the regex does not match `'\n'`), while the claimed rule
would delete the caret. -/
theorem win_escape_newline_counterexample :
    win_escape_char ['^', '\n'] = ['^', '\n'] ∧
      win_escape_claimed ['^', '\n'] = ['\n'] ∧
      win_escape_char ['^', '\n'] ≠ win_escape_claimed ['^', '\n'] := by
  decide

/-- C6, amended: `win_escape_char` replaces each occurrence of a caret
followed by a single character *other than a newline* with that character
(all such escapes in the string are removed, scanning left to right); a
caret followed by a newline is left untouched, a caret at the very end of
the string is left untouched, and a string with no caret at all is returned
unchanged. -/
theorem win_escape_behavior :
    (∀ (u : List Char) (c : Char) (v : List Char), '^' ∉ u → c ≠ '\n' →
      win_escape_char (u ++ '^' :: c :: v) = u ++ c :: win_escape_char v) ∧
    (∀ (u v : List Char), '^' ∉ u →
      win_escape_char (u ++ '^' :: '\n' :: v) = u ++ '^' :: '\n' :: win_escape_char v) ∧
    (∀ (u : List Char), '^' ∉ u → win_escape_char (u ++ ['^']) = u ++ ['^']) ∧
    (∀ (s : List Char), '^' ∉ s → win_escape_char s = s) := by
  refine ⟨?_, ?_, ?_, ?_⟩
  · intro u c v hu hc
    rw [win_escape_append u hu, win_escape_caret_pair c v hc]
  · intro u v hu
    rw [win_escape_append u hu, win_escape_caret_newline]
  · intro u hu
    rw [win_escape_append u hu]
    rfl
  · exact fun s h => win_escape_id s h

/-- C6, witness: an escape in the middle of a string, a trailing caret, and
a caret-free string. -/
theorem win_escape_behavior_witness :
    win_escape_char (['a'] ++ '^' :: 'b' :: ['c']) = ['a'] ++ 'b' :: win_escape_char ['c'] ∧
      win_escape_char (['a'] ++ ['^']) = ['a'] ++ ['^'] ∧
      win_escape_char ['x', 'y'] = ['x', 'y'] :=
  ⟨win_escape_behavior.1 ['a'] 'b' ['c'] (by decide) (by decide),
   win_escape_behavior.2.2.1 ['a'] (by decide),
   win_escape_behavior.2.2.2 ['x', 'y'] (by decide)⟩

/-- C7: across any process-lifetime sequence of `co_initialize` calls (the
initialization step shared by `canonicalize` and `move_file`), the native
`CoInitialize` call succeeds at most once; the flag is true exactly when a
successful native call has happened (it is set only after success); a call
that sees the flag already true performs no native call at all; a failed
native call leaves the flag false (so a later call may retry) and surfaces
`InitializationFailure`; and both native-call-dependent operations evolve
the flag exactly as `co_initialize` does. -/
theorem init_at_most_once :
    (∀ (l : List Bool), (runInitSeq false l).2.count true ≤ 1) ∧
    (∀ (l : List Bool), (runInitSeq false l).1 = true ↔ true ∈ (runInitSeq false l).2) ∧
    (∀ (flag ok : Bool), flag = true → co_initialize_t flag ok = (true, [], Except.ok ())) ∧
    (co_initialize_t false false
      = (false, [false], Except.error Err.initializationFailure)) ∧
    (∀ (flag ok : Bool) (oracle : CanonOracle) (s : List Char),
      (path_cch_canonicalize_ex flag ok oracle s).1 = (co_initialize_t flag ok).1) ∧
    (∀ (flag ok : Bool) (oracle : MoveOracle) (src dst : List Char) (ow : Bool),
      (priv_move_file flag ok oracle src dst ow).1 = (co_initialize_t flag ok).1) := by
  refine ⟨?_, ?_, ?_, rfl, path_cch_fst, priv_move_fst⟩
  · exact fun l => (runInitSeq_false_spec l).1
  · exact fun l => (runInitSeq_false_spec l).2
  · intro flag ok hf
    subst hf
    rfl

/-- C7, witness: a failure followed by two successes performs exactly one
successful native call, and a call with the flag already set is a no-op. -/
theorem init_at_most_once_witness :
    (runInitSeq false [false, true, true]).2.count true ≤ 1 ∧
      co_initialize_t true false = (true, [], Except.ok ()) :=
  ⟨init_at_most_once.1 [false, true, true], init_at_most_once.2.2.1 true false rfl⟩

/-- C8: `move_file` delegates to `priv_move_file`, which first ensures
platform initialization — on initialization failure no native move happens
and the failure is surfaced — and then invokes `MoveFileExW` exactly once,
passing `src` and `dst` through verbatim with flags
`(if overwrite then 1 else 0) + 0 + 2`: the cross-volume copy-fallback bit
(`MOVEFILE_COPY_ALLOWED = 2`) is always set and the overwrite bit
(`MOVEFILE_REPLACE_EXISTING = 1`) is set exactly when the caller's flag is
true. -/
theorem move_file_native_call :
    (∀ (flag ok : Bool) (oracle : MoveOracle) (src dst : List Char) (ow : Bool),
      move_file flag ok oracle src dst ow = priv_move_file flag ok oracle src dst ow) ∧
    (∀ (oracle : MoveOracle) (src dst : List Char) (ow : Bool),
      priv_move_file false false oracle src dst ow
        = (false, [], Except.error Err.initializationFailure)) ∧
    (∀ (flag ok : Bool) (oracle : MoveOracle) (src dst : List Char) (ow : Bool),
      flag = true ∨ ok = true →
      (priv_move_file flag ok oracle src dst ow).2.1
        = [(src, dst, (if ow then 1 else 0) + 0 + 2)]) ∧
    (∀ (ow : Bool), Nat.testBit ((if ow then 1 else 0) + 0 + 2) 1 = true ∧
      Nat.testBit ((if ow then 1 else 0) + 0 + 2) 0 = ow) := by
  refine ⟨fun _ _ _ _ _ _ => rfl, fun oracle src dst ow => priv_move_init_fail oracle src dst ow,
    ?_, ?_⟩
  · intro flag ok oracle src dst ow h
    rw [priv_move_red flag ok oracle src dst ow h]
    cases oracle src dst ((if ow then 1 else 0) + 0 + 2) with
    | error code => rfl
    | ok u => rfl
  · intro ow
    cases ow <;> exact ⟨by decide, by decide⟩

/-- C8, witness: with initialization succeeding, an overwriting move records
exactly one native call with the caller's strings and flags `3`. -/
theorem move_file_native_call_witness :
    (priv_move_file false true okMoveOracle ['a'] ['b'] true).2.1
        = [(['a'], ['b'], (if true then 1 else 0) + 0 + 2)] ∧
      priv_move_file false false okMoveOracle ['a'] ['b'] true
        = (false, [], Except.error Err.initializationFailure) :=
  ⟨move_file_native_call.2.2.1 false true okMoveOracle ['a'] ['b'] true (Or.inr rfl),
   move_file_native_call.2.1 okMoveOracle ['a'] ['b'] true⟩

/-- C9: when the text after the `/<letter>/` prefix (for `fix_root`) or
after the leading `~` (for `fix_tilde`) contains a newline, the rule returns
its input unchanged — the anchored patterns never match a remainder with a
newline, even when the string otherwise has exactly the matching shape. -/
theorem anchored_patterns_newline :
    (∀ (c : Char) (rest : List Char), '\n' ∈ rest →
      fix_root ('/' :: c :: '/' :: rest) = '/' :: c :: '/' :: rest) ∧
    (∀ (env : Option (List Char)) (rest : List Char), '\n' ∈ rest →
      fix_tilde env ('~' :: rest) = Except.ok ('~' :: rest)) :=
  ⟨fix_root_newline, fix_tilde_newline⟩

/-- C9, witness: `"/f/\n"` and `"~a\n"` (the latter with the home variable
unset) both pass through unchanged. -/
theorem anchored_patterns_newline_witness :
    fix_root ('/' :: 'f' :: '/' :: ['\n']) = '/' :: 'f' :: '/' :: ['\n'] ∧
      fix_tilde none ('~' :: ['a', '\n']) = Except.ok ('~' :: ['a', '\n']) :=
  ⟨anchored_patterns_newline.1 'f' ['\n'] (by decide),
   anchored_patterns_newline.2 none ['a', '\n'] (by decide)⟩

/-- C10: when the native canonicalizer succeeds, filling the 32768-unit
buffer with a null-terminated result, `path_cch_canonicalize_ex` decodes the
buffer prefix strictly before the first zero unit: that prefix is at most
32767 UTF-16 units long; a valid prefix decodes to the returned string,
which contains no NUL character; an invalid prefix produces an
`EncodingFailure` error instead of a string. -/
theorem path_cch_buffer_decode (flag ok : Bool) (oracle : CanonOracle) (s : List Char)
    (buf : List Nat) (horacle : oracle s = Except.ok buf) (hlen : buf.length = 32768)
    (hzero : 0 ∈ buf) (hinit : flag = true ∨ ok = true) :
    ((buf.takeWhile (fun u => u != 0)).length ≤ 32767) ∧
    (∀ cps, decodeUtf16 (buf.takeWhile (fun u => u != 0)) = some cps →
      (path_cch_canonicalize_ex flag ok oracle s).2 = Except.ok cps ∧ 0 ∉ cps) ∧
    (decodeUtf16 (buf.takeWhile (fun u => u != 0)) = none →
      (path_cch_canonicalize_ex flag ok oracle s).2 = Except.error Err.encodingFailure) := by
  refine ⟨?_, ?_, ?_⟩
  · have := takeWhile_nz_lt buf hzero
    omega
  · intro cps hdec
    constructor
    · rw [path_cch_red flag ok oracle s hinit, horacle]
      dsimp only
      rw [hdec]
    · refine decodeUtf16_no_zero (buf.takeWhile (fun u => u != 0)).length _ le_rfl ?_ cps hdec
      intro u hu
      exact mem_takeWhile_nz hu
  · intro hdec
    rw [path_cch_red flag ok oracle s hinit, horacle]
    dsimp only
    rw [hdec]

/-- C10, witness: a buffer holding `"H"` followed by a zero terminator
decodes to the single code point 72, with no NUL in the result. -/
theorem path_cch_buffer_decode_witness :
    ((72 :: List.replicate 32767 (0 : Nat)).takeWhile (fun u => u != 0)).length ≤ 32767 ∧
      ((path_cch_canonicalize_ex false true bufOracle []).2 = Except.ok [72] ∧
        (0 : Nat) ∉ [72]) := by
  have htw : (72 :: List.replicate 32767 (0 : Nat)).takeWhile (fun u => u != 0) = [72] := by
    rw [List.takeWhile_cons_of_pos (by decide), takeWhile_replicate_zero]
  have hdec : decodeUtf16 ((72 :: List.replicate 32767 (0 : Nat)).takeWhile (fun u => u != 0))
      = some [72] := by
    rw [htw]
    rfl
  have hmain := path_cch_buffer_decode false true bufOracle [] (72 :: List.replicate 32767 0)
    rfl (by rw [List.length_cons, List.length_replicate])
    (List.mem_cons_of_mem 72 (List.mem_replicate.mpr ⟨by norm_num, rfl⟩)) (Or.inr rfl)
  exact ⟨hmain.1, hmain.2.1 [72] hdec⟩

end WinCanon
